import Mathlib

/-!
Verification of the block-codec of `src/lai.py` (galihru/pqcrypto): the
byte↔integer mapping used to package a file for a modulus-bounded cipher.
The cipher itself (`keygen`/`encrypt`/`decrypt` from the external `pqcrypto`
module) is out of scope; everything below embeds the pure codec logic of
`lai.py`: `max_block_size`, `file_to_int_blocks`, the decode loop of
`__main__`, and the final byte-for-byte comparison.

Bytes are modelled as natural numbers (Python `bytes` guarantees values in
[0, 256); theorems that need this bound carry it as a hypothesis), Python
integers in the decode loop as `Int` (the code checks `m_int < 0`), and
Python exceptions as `Except`.
-/

namespace PQCrypto

instance {ε α : Type} [DecidableEq ε] [DecidableEq α] : DecidableEq (Except ε α) := fun x y =>
  match x, y with
  | .error e, .error e' =>
    if h : e = e' then isTrue (h ▸ rfl) else isFalse fun hc => h (Except.error.inj hc)
  | .error _, .ok _ => isFalse fun hc => Except.noConfusion hc
  | .ok _, .error _ => isFalse fun hc => Except.noConfusion hc
  | .ok a, .ok a' =>
    if h : a = a' then isTrue (h ▸ rfl) else isFalse fun hc => h (Except.ok.inj hc)

/-- Helper for `bitLength`, recursing on a fuel argument so that the
definition is structurally recursive; `fuel ≥ n` suffices because the bit
count of `n` never exceeds `n`. -/
def bitLenAux : Nat → Nat → Nat
  | 0, _ => 0
  | fuel + 1, n => if n = 0 then 0 else bitLenAux fuel (n / 2) + 1

/-- Python's `int.bit_length()`: the number of bits needed to represent `n`
in binary, with `bitLength 0 = 0`. -/
def bitLength (n : Nat) : Nat := bitLenAux n n

/-- `max_block_size` from `src/lai.py` lines 11-17:
`B = (p.bit_length() - 1) // 8`. -/
def max_block_size (p : Nat) : Nat := (bitLength p - 1) / 8

/-- `max_block_size_int` from `src/lai.py` lines 94-95, the copy re-derived
inside the verification flow: `(p_val.bit_length() - 1) // 8`. -/
def max_block_size_int (p_val : Nat) : Nat := (bitLength p_val - 1) / 8

/-- Python `int.from_bytes(chunk, byteorder="big")`. -/
def bytesToNat (chunk : List Nat) : Nat :=
  chunk.foldl (fun acc b => acc * 256 + b) 0

/-- Errors raised by `file_to_int_blocks`: the `B < 1` configuration check
(line 31) and the per-block `m_int >= p` check, which reports the offending
block index (line 41). -/
inductive EncErr
  | configError
  | blockGE (i : Nat)
deriving DecidableEq

/-- The encoder loop of `file_to_int_blocks` (`src/lai.py` lines 33-42): for
each block index `i` in order, take `chunk = raw[i*B : i*B + B]`, convert it
big-endian, and fail with the block index as soon as the integer reaches `p`. -/
def encodeBlocksFrom (raw : List Nat) (p B : Nat) : List Nat → Except EncErr (List Nat)
  | [] => .ok []
  | i :: is =>
    let chunk := (raw.drop (i * B)).take B
    let m_int := bytesToNat chunk
    if p ≤ m_int then .error (.blockGE i)
    else
      match encodeBlocksFrom raw p B is with
      | .error e => .error e
      | .ok rest => .ok (m_int :: rest)

/-- I/O events of the encoder, used to state in which order the plaintext
read and the configuration check happen. -/
inductive Event
  | readPlaintext
deriving DecidableEq

/-- `file_to_int_blocks` (`src/lai.py` lines 19-44) with its I/O order made
explicit: the plaintext file is read in full first (lines 26-27), then `B` is
computed and checked (lines 29-31), then the chunk loop runs (lines 33-44).
The first component records the I/O events in program order;
`math.ceil(len(raw) / B)` is `(len + B - 1) / B`. -/
def fileToIntBlocksRun (raw : List Nat) (p : Nat) : List Event × Except EncErr (List Nat) :=
  let events := [Event.readPlaintext]
  let B := max_block_size p
  if B < 1 then (events, .error .configError)
  else (events, encodeBlocksFrom raw p B (List.range ((raw.length + B - 1) / B)))

/-- `file_to_int_blocks` as a function of the file's bytes and `p`
(`src/lai.py` lines 19-44). -/
def file_to_int_blocks (raw : List Nat) (p : Nat) : Except EncErr (List Nat) :=
  (fileToIntBlocksRun raw p).2

/-- `math.ceil(m_int.bit_length() / 8)` (`src/lai.py` line 117). -/
def byteLen (m : Nat) : Nat := (bitLength m + 7) / 8

/-- Big-endian representation of `m` in exactly `n` bytes
(Python `m.to_bytes(n, byteorder="big")`; the code only calls it with
`n = byteLen m`, the minimal length). -/
def natToBytesBE : Nat → Nat → List Nat
  | 0, _ => []
  | n + 1, m => natToBytesBE n (m / 256) ++ [m % 256]

/-- The chunk built for one decrypted integer (`src/lai.py` lines 114-118):
a single zero byte when `m = 0`, else the minimal big-endian representation
of `m` in `byteLen m` bytes. -/
def minimalChunk (m : Nat) : List Nat :=
  if m = 0 then [0] else natToBytesBE (byteLen m) m

/-- Errors raised by the decode loop: the range check (lines 112-113) and the
chunk-length check (lines 119-120). -/
inductive DecErr
  | rangeError (m : Int)
  | lengthOverflow (m : Int)
deriving DecidableEq

/-- One iteration of the decode loop (`src/lai.py` lines 111-122): range
check `0 ≤ m < p`, chunk construction, length check `len(chunk) > B`, then
left-pad with zero bytes to length `B` (`chunk.rjust(B, b"\x00")`). -/
def decodeBlock (p B : Nat) (m : Int) : Except DecErr (List Nat) :=
  if m < 0 ∨ (p : Int) ≤ m then .error (.rangeError m)
  else
    let chunk := minimalChunk m.toNat
    if B < chunk.length then .error (.lengthOverflow m)
    else .ok (List.replicate (B - chunk.length) 0 ++ chunk)

/-- The whole decode loop (`src/lai.py` lines 110-123): process the blocks in
order, aborting at the first error, concatenating the padded chunks. -/
def decodeBlocks (p B : Nat) : List Int → Except DecErr (List Nat)
  | [] => .ok []
  | m :: ms =>
    match decodeBlock p B m with
    | .error e => .error e
    | .ok c =>
      match decodeBlocks p B ms with
      | .error e => .error e
      | .ok rest => .ok (c ++ rest)

/-- The decoder (`src/lai.py` lines 109-128): re-derive `B` via
`max_block_size_int`, decode all blocks, then truncate the assembled buffer
to the original plaintext length (`all_bytes[: len(original_bytes)]`). -/
def decoder (ms : List Int) (p : Nat) (L : Nat) : Except DecErr (List Nat) :=
  match decodeBlocks p (max_block_size_int p) ms with
  | .error e => .error e
  | .ok bs => .ok (bs.take L)

/-- Error raised by the final comparison (`src/lai.py` line 130). -/
inductive VerErr
  | mismatch
deriving DecidableEq

/-- The verification comparison (`src/lai.py` lines 126-131): truncate the
assembled bytes to the original length and require byte-for-byte equality,
raising on mismatch. -/
def verifyRoundTrip (all_bytes original_bytes : List Nat) : Except VerErr Unit :=
  if all_bytes.take original_bytes.length ≠ original_bytes then .error .mismatch
  else .ok ()

theorem size_eq_size_div_two_add_one {n : Nat} (h : 1 ≤ n) :
    Nat.size n = Nat.size (n / 2) + 1 := by
  apply le_antisymm
  · rw [Nat.size_le, pow_succ]
    have h1 : n / 2 < 2 ^ Nat.size (n / 2) := Nat.lt_size_self _
    omega
  · have h2 : Nat.size (n / 2) < Nat.size n := by
      rw [Nat.lt_size]
      by_cases h0 : n / 2 = 0
      · simpa [h0] using h
      · have hp : 0 < Nat.size (n / 2) := Nat.size_pos.mpr (Nat.pos_of_ne_zero h0)
        have h3 : 2 ^ (Nat.size (n / 2) - 1) ≤ n / 2 := Nat.lt_size.mp (by omega)
        have h4 : 2 ^ Nat.size (n / 2) = 2 ^ (Nat.size (n / 2) - 1) * 2 := by
          rw [← pow_succ]
          congr 1
          omega
        omega
    omega

theorem bitLenAux_eq_size : ∀ fuel n, n ≤ fuel → bitLenAux fuel n = Nat.size n
  | 0, n, h => by
    have hn : n = 0 := by omega
    subst hn
    simp [bitLenAux]
  | fuel + 1, n, h => by
    by_cases h0 : n = 0
    · simp [bitLenAux, h0]
    · have hrec : n / 2 ≤ fuel := by omega
      rw [show bitLenAux (fuel + 1) n
          = if n = 0 then 0 else bitLenAux fuel (n / 2) + 1 from rfl]
      rw [if_neg h0, bitLenAux_eq_size fuel (n / 2) hrec,
        ← size_eq_size_div_two_add_one (by omega)]

theorem bitLength_eq_size (n : Nat) : bitLength n = Nat.size n :=
  bitLenAux_eq_size n n le_rfl

theorem bytesToNat_foldl_lt :
    ∀ (l : List Nat), (∀ b ∈ l, b < 256) →
      ∀ acc : Nat, l.foldl (fun a b => a * 256 + b) acc < (acc + 1) * 256 ^ l.length
  | [], _, acc => by simp
  | b :: l, hl, acc => by
    have hb : b < 256 := hl b (List.mem_cons_self _ _)
    have hl' : ∀ x ∈ l, x < 256 := fun x hx => hl x (List.mem_cons_of_mem _ hx)
    have h1 := bytesToNat_foldl_lt l hl' (acc * 256 + b)
    simp only [List.foldl_cons]
    calc List.foldl (fun a b => a * 256 + b) (acc * 256 + b) l
        < (acc * 256 + b + 1) * 256 ^ l.length := h1
      _ ≤ ((acc + 1) * 256) * 256 ^ l.length :=
          Nat.mul_le_mul (by omega) (Nat.le_refl _)
      _ = (acc + 1) * 256 ^ (b :: l).length := by
          rw [List.length_cons, pow_succ]
          ring

theorem bytesToNat_lt (chunk : List Nat) (hl : ∀ b ∈ chunk, b < 256) :
    bytesToNat chunk < 256 ^ chunk.length := by
  have h := bytesToNat_foldl_lt chunk hl 0
  simpa [bytesToNat] using h

theorem pow256_eq (k : Nat) : 256 ^ k = 2 ^ (8 * k) := by
  rw [pow_mul]
  norm_num

/-- C2: for every modulus `p ≥ 2`, `max_block_size p` returns
`(bitlength p - 1) / 8`; this `B` satisfies `2 ^ (8 B) ≤ p`; and every
big-endian unsigned integer formed from at most `B` bytes is strictly below
`2 ^ (8 B)` (the power-of-two lower bound of `p`). -/
theorem max_block_size_correct (p : Nat) (hp : 2 ≤ p) :
    max_block_size p = (bitLength p - 1) / 8 ∧
    2 ^ (8 * max_block_size p) ≤ p ∧
    ∀ chunk : List Nat, (∀ b ∈ chunk, b < 256) → chunk.length ≤ max_block_size p →
      bytesToNat chunk < 2 ^ (8 * max_block_size p) := by
  refine ⟨rfl, ?_, ?_⟩
  · have hs : 1 ≤ Nat.size p := Nat.size_pos.mpr (by omega)
    have h1 : 8 * max_block_size p ≤ Nat.size p - 1 := by
      unfold max_block_size
      rw [bitLength_eq_size]
      omega
    have h2 : 2 ^ (Nat.size p - 1) ≤ p := Nat.lt_size.mp (by omega)
    calc 2 ^ (8 * max_block_size p) ≤ 2 ^ (Nat.size p - 1) :=
          Nat.pow_le_pow_right (by omega) h1
      _ ≤ p := h2
  · intro chunk hb hlen
    have h1 : bytesToNat chunk < 256 ^ chunk.length := bytesToNat_lt chunk hb
    have h2 : (256 : Nat) ^ chunk.length ≤ 256 ^ max_block_size p :=
      Nat.pow_le_pow_right (by omega) hlen
    have h3 := pow256_eq (max_block_size p)
    omega

/-- Witness for C2 at `p = 10007`. -/
theorem max_block_size_correct_witness :
    max_block_size 10007 = (bitLength 10007 - 1) / 8 ∧
    2 ^ (8 * max_block_size 10007) ≤ 10007 ∧
    ∀ chunk : List Nat, (∀ b ∈ chunk, b < 256) → chunk.length ≤ max_block_size 10007 →
      bytesToNat chunk < 2 ^ (8 * max_block_size 10007) :=
  max_block_size_correct 10007 (by decide)

/-- C9: the two block-size functions of the source, `max_block_size`
(encoder, lines 11-17) and `max_block_size_int` (verification flow, lines
94-95), agree on every positive modulus, so encoder and decoder use the
same `B`. -/
theorem max_block_size_eq_max_block_size_int (p : Nat) (_hp : 1 ≤ p) :
    max_block_size p = max_block_size_int p := rfl

/-- Witness for C9 at `p = 10007`. -/
theorem max_block_size_eq_max_block_size_int_witness :
    max_block_size 10007 = max_block_size_int 10007 :=
  max_block_size_eq_max_block_size_int 10007 (by decide)

/-- C8: the verifier succeeds exactly when the reconstructed (truncated)
buffer equals the original byte-for-byte, and reports the hard `mismatch`
error exactly when some byte differs; a mismatch is never reported as
success. -/
theorem verifyRoundTrip_spec (all_bytes original_bytes : List Nat) :
    (verifyRoundTrip all_bytes original_bytes = .ok () ↔
      all_bytes.take original_bytes.length = original_bytes) ∧
    (verifyRoundTrip all_bytes original_bytes = .error .mismatch ↔
      all_bytes.take original_bytes.length ≠ original_bytes) := by
  unfold verifyRoundTrip
  by_cases h : all_bytes.take original_bytes.length = original_bytes <;> simp [h]

/-- C3 as stated is false on the code: with `p = 255` (so `B = 0 < 1`) the
run fails with the configuration error, yet the plaintext has been read —
the file read (lines 26-27) precedes the block-size check (lines 29-31). -/
theorem configError_after_plaintext_read :
    (fileToIntBlocksRun [1, 2, 3] 255).2 = .error .configError ∧
    Event.readPlaintext ∈ (fileToIntBlocksRun [1, 2, 3] 255).1 := by
  exact ⟨by decide, by decide⟩

/-- C3 amended: when the derived block size is below 1, the encoder signals
the configuration error and no encoding proceeds (no blocks are produced),
but the plaintext file has already been read in full: the read precedes the
block-size check. -/
theorem configError_aborts_after_read (raw : List Nat) (p : Nat)
    (h : max_block_size p < 1) :
    fileToIntBlocksRun raw p = ([Event.readPlaintext], .error .configError) := by
  simp [fileToIntBlocksRun, h]

/-- Witness for the amended C3 at `p = 100`. -/
theorem configError_aborts_after_read_witness :
    fileToIntBlocksRun [9] 100 = ([Event.readPlaintext], .error .configError) :=
  configError_aborts_after_read [9] 100 (by decide)

/-- C1 fails on the code: for the 3-byte buffer `41 42 43` and `p = 65537`
(block size `B = 2`), the encoder yields `[16706, 67]`, but the decoder
reassembles `41 42 00`: the short final chunk is left-padded to `B` bytes
and the pad zero survives truncation, so the round trip does not return the
original buffer (the program would then raise its own mismatch error). -/
theorem roundtrip_fails_on_short_final_chunk :
    file_to_int_blocks [65, 66, 67] 65537 = .ok [16706, 67] ∧
    decoder [(16706 : Int), (67 : Int)] 65537 3 = .ok [65, 66, 0] ∧
    ([65, 66, 0] : List Nat) ≠ [65, 66, 67] :=
  ⟨by decide, by decide, by decide⟩

theorem encodeBlocksFrom_nil (raw : List Nat) (p B : Nat) :
    encodeBlocksFrom raw p B [] = .ok [] := rfl

theorem encodeBlocksFrom_cons_ge (raw : List Nat) (p B i : Nat) (is : List Nat)
    (hge : p ≤ bytesToNat ((raw.drop (i * B)).take B)) :
    encodeBlocksFrom raw p B (i :: is) = .error (.blockGE i) := by
  simp [encodeBlocksFrom, hge]

theorem encodeBlocksFrom_cons_error (raw : List Nat) (p B i : Nat) (is : List Nat)
    (e : EncErr) (hlt : bytesToNat ((raw.drop (i * B)).take B) < p)
    (hrec : encodeBlocksFrom raw p B is = .error e) :
    encodeBlocksFrom raw p B (i :: is) = .error e := by
  simp [encodeBlocksFrom, Nat.not_le.mpr hlt, hrec]

theorem encodeBlocksFrom_cons_ok (raw : List Nat) (p B i : Nat) (is rest : List Nat)
    (hlt : bytesToNat ((raw.drop (i * B)).take B) < p)
    (hrec : encodeBlocksFrom raw p B is = .ok rest) :
    encodeBlocksFrom raw p B (i :: is) =
      .ok (bytesToNat ((raw.drop (i * B)).take B) :: rest) := by
  simp [encodeBlocksFrom, Nat.not_le.mpr hlt, hrec]

theorem encodeBlocksFrom_ok_map (raw : List Nat) (p B : Nat) :
    ∀ (is : List Nat) (bs : List Nat),
      encodeBlocksFrom raw p B is = .ok bs →
      bs = is.map (fun i => bytesToNat ((raw.drop (i * B)).take B))
  | [], bs, h => by
    rw [encodeBlocksFrom_nil] at h
    simp only [Except.ok.injEq] at h
    simp [← h]
  | i :: is, bs, h => by
    by_cases hge : p ≤ bytesToNat ((raw.drop (i * B)).take B)
    · rw [encodeBlocksFrom_cons_ge raw p B i is hge] at h
      simp at h
    · have hlt := Nat.not_le.mp hge
      cases hrec : encodeBlocksFrom raw p B is with
      | error e =>
        rw [encodeBlocksFrom_cons_error raw p B i is e hlt hrec] at h
        simp at h
      | ok rest =>
        rw [encodeBlocksFrom_cons_ok raw p B i is rest hlt hrec] at h
        simp only [Except.ok.injEq] at h
        subst h
        simp [encodeBlocksFrom_ok_map raw p B is rest hrec]

theorem encodeBlocksFrom_ok_iff (raw : List Nat) (p B : Nat) :
    ∀ is : List Nat,
      (∃ bs, encodeBlocksFrom raw p B is = .ok bs) ↔
      ∀ i ∈ is, bytesToNat ((raw.drop (i * B)).take B) < p
  | [] => by simp [encodeBlocksFrom_nil]
  | i :: is => by
    by_cases hge : p ≤ bytesToNat ((raw.drop (i * B)).take B)
    · rw [encodeBlocksFrom_cons_ge raw p B i is hge]
      constructor
      · rintro ⟨bs, hbs⟩
        simp at hbs
      · intro hall
        have := hall i (List.mem_cons_self _ _)
        omega
    · have hlt := Nat.not_le.mp hge
      constructor
      · rintro ⟨bs, hbs⟩
        intro j hj
        rcases List.mem_cons.mp hj with rfl | hj'
        · exact hlt
        · cases hrec : encodeBlocksFrom raw p B is with
          | error e =>
            rw [encodeBlocksFrom_cons_error raw p B i is e hlt hrec] at hbs
            simp at hbs
          | ok rest =>
            exact (encodeBlocksFrom_ok_iff raw p B is).mp ⟨rest, hrec⟩ j hj'
      · intro hall
        have htail : ∀ j ∈ is, bytesToNat ((raw.drop (j * B)).take B) < p :=
          fun j hj => hall j (List.mem_cons_of_mem _ hj)
        rcases (encodeBlocksFrom_ok_iff raw p B is).mpr htail with ⟨rest, hrec⟩
        exact ⟨_, encodeBlocksFrom_cons_ok raw p B i is rest hlt hrec⟩

theorem encodeBlocksFrom_error_range' (raw : List Nat) (p B : Nat) :
    ∀ (n s i : Nat),
      encodeBlocksFrom raw p B (List.range' s n) = .error (.blockGE i) ↔
      (s ≤ i ∧ i < s + n ∧ p ≤ bytesToNat ((raw.drop (i * B)).take B) ∧
        ∀ j, s ≤ j → j < i → bytesToNat ((raw.drop (j * B)).take B) < p)
  | 0, s, i => by
    constructor
    · intro h
      rw [show List.range' s 0 = [] from rfl, encodeBlocksFrom_nil] at h
      simp at h
    · rintro ⟨h1, h2, _, _⟩
      omega
  | n + 1, s, i => by
    rw [List.range'_succ]
    by_cases hge : p ≤ bytesToNat ((raw.drop (s * B)).take B)
    · rw [encodeBlocksFrom_cons_ge raw p B s _ hge]
      constructor
      · intro h
        obtain rfl : s = i := EncErr.blockGE.inj (Except.error.inj h)
        exact ⟨le_rfl, by omega, hge, fun j h1 h2 => by omega⟩
      · rintro ⟨h1, h2, h3, h4⟩
        have hi : i = s := by
          by_contra hne
          have hlt : s < i := by omega
          have := h4 s le_rfl hlt
          omega
        subst hi
        rfl
    · have hlt := Nat.not_le.mp hge
      cases hrec : encodeBlocksFrom raw p B (List.range' (s + 1) n) with
      | error e =>
        rw [encodeBlocksFrom_cons_error raw p B s _ e hlt hrec]
        constructor
        · intro h
          obtain rfl : e = .blockGE i := Except.error.inj h
          have hih := (encodeBlocksFrom_error_range' raw p B n (s + 1) i).mp hrec
          refine ⟨by omega, by omega, hih.2.2.1, ?_⟩
          intro j hj1 hj2
          rcases Nat.eq_or_lt_of_le hj1 with rfl | hjlt
          · exact hlt
          · exact hih.2.2.2 j (by omega) hj2
        · rintro ⟨h1, h2, h3, h4⟩
          have hsi : s < i := by
            rcases Nat.eq_or_lt_of_le h1 with rfl | h
            · omega
            · exact h
          have hcon : encodeBlocksFrom raw p B (List.range' (s + 1) n)
              = .error (.blockGE i) :=
            (encodeBlocksFrom_error_range' raw p B n (s + 1) i).mpr
              ⟨by omega, by omega, h3, fun j hj1 hj2 => h4 j (by omega) hj2⟩
          rw [hrec] at hcon
          rw [hcon]
      | ok rest =>
        rw [encodeBlocksFrom_cons_ok raw p B s _ rest hlt hrec]
        constructor
        · intro h
          simp at h
        · rintro ⟨h1, h2, h3, h4⟩
          have hok : ∀ j ∈ List.range' (s + 1) n,
              bytesToNat ((raw.drop (j * B)).take B) < p :=
            (encodeBlocksFrom_ok_iff raw p B (List.range' (s + 1) n)).mp ⟨rest, hrec⟩
          have hsi : s < i := by
            rcases Nat.eq_or_lt_of_le h1 with rfl | h
            · omega
            · exact h
          have hmem : i ∈ List.range' (s + 1) n :=
            List.mem_range'_1.mpr ⟨by omega, by omega⟩
          have := hok i hmem
          omega

theorem file_to_int_blocks_eq (raw : List Nat) (p : Nat) (hB : 1 ≤ max_block_size p) :
    file_to_int_blocks raw p =
      encodeBlocksFrom raw p (max_block_size p)
        (List.range ((raw.length + max_block_size p - 1) / max_block_size p)) := by
  simp [file_to_int_blocks, fileToIntBlocksRun, Nat.not_lt.mpr hB]

/-- C4: on success with a valid modulus (`B ≥ 1`), the encoder returns
exactly `⌈len/B⌉` integers in order, the `i`-th being the big-endian value
of the chunk `raw[i*B : i*B + B]`; every chunk except possibly the last has
exactly `B` bytes. -/
theorem encoder_blocks_exact (raw : List Nat) (p : Nat) (blocks : List Nat)
    (hB : 1 ≤ max_block_size p)
    (henc : file_to_int_blocks raw p = .ok blocks) :
    blocks = (List.range ((raw.length + max_block_size p - 1) / max_block_size p)).map
        (fun i => bytesToNat ((raw.drop (i * max_block_size p)).take (max_block_size p))) ∧
    blocks.length = (raw.length + max_block_size p - 1) / max_block_size p ∧
    ∀ i, i + 1 < (raw.length + max_block_size p - 1) / max_block_size p →
      ((raw.drop (i * max_block_size p)).take (max_block_size p)).length
        = max_block_size p := by
  rw [file_to_int_blocks_eq raw p hB] at henc
  have hmap := encodeBlocksFrom_ok_map raw p (max_block_size p) _ blocks henc
  refine ⟨hmap, ?_, ?_⟩
  · rw [hmap]
    simp
  · intro i hi
    have h1 : ((raw.length + max_block_size p - 1) / max_block_size p) * max_block_size p
        ≤ raw.length + max_block_size p - 1 := Nat.div_mul_le_self _ _
    have h2 : (i + 2) * max_block_size p
        ≤ ((raw.length + max_block_size p - 1) / max_block_size p) * max_block_size p :=
      Nat.mul_le_mul (by omega) (Nat.le_refl _)
    have h3 : (i + 2) * max_block_size p
        = i * max_block_size p + 2 * max_block_size p := by ring
    have h4 : i * max_block_size p + max_block_size p ≤ raw.length := by omega
    simp only [List.length_take, List.length_drop]
    omega

/-- Witness for C4 on the buffer `41 00 FF` with `p = 10007` (`B = 1`). -/
theorem encoder_blocks_exact_witness :
    ([65, 0, 255] : List Nat)
      = (List.range ((([65, 0, 255] : List Nat).length + max_block_size 10007 - 1)
            / max_block_size 10007)).map
        (fun i => bytesToNat ((([65, 0, 255] : List Nat).drop (i * max_block_size 10007)).take
          (max_block_size 10007))) ∧
    ([65, 0, 255] : List Nat).length
      = (([65, 0, 255] : List Nat).length + max_block_size 10007 - 1) / max_block_size 10007 ∧
    ∀ i, i + 1 < (([65, 0, 255] : List Nat).length + max_block_size 10007 - 1)
        / max_block_size 10007 →
      ((([65, 0, 255] : List Nat).drop (i * max_block_size 10007)).take
        (max_block_size 10007)).length = max_block_size 10007 :=
  encoder_blocks_exact [65, 0, 255] 10007 [65, 0, 255] (by decide) (by decide)

/-- C5: with a valid modulus (`B ≥ 1`), the encoder fails exactly when some
chunk's big-endian value reaches `p`; when it fails with `blockGE i`, `i` is
the first offending chunk index; when it succeeds, every returned integer is
strictly below `p`. -/
theorem encoder_fail_iff (raw : List Nat) (p : Nat) (hB : 1 ≤ max_block_size p) :
    ((∃ e, file_to_int_blocks raw p = .error e) ↔
      (∃ i, i < (raw.length + max_block_size p - 1) / max_block_size p ∧
        p ≤ bytesToNat ((raw.drop (i * max_block_size p)).take (max_block_size p)))) ∧
    (∀ i, file_to_int_blocks raw p = .error (.blockGE i) →
      (i < (raw.length + max_block_size p - 1) / max_block_size p ∧
        p ≤ bytesToNat ((raw.drop (i * max_block_size p)).take (max_block_size p)) ∧
        ∀ j, j < i →
          bytesToNat ((raw.drop (j * max_block_size p)).take (max_block_size p)) < p)) ∧
    (∀ blocks, file_to_int_blocks raw p = .ok blocks → ∀ m ∈ blocks, m < p) := by
  rw [file_to_int_blocks_eq raw p hB]
  refine ⟨?_, ?_, ?_⟩
  · constructor
    · rintro ⟨e, he⟩
      by_contra hno
      push_neg at hno
      have hok := (encodeBlocksFrom_ok_iff raw p (max_block_size p)
          (List.range ((raw.length + max_block_size p - 1) / max_block_size p))).mpr
        (fun i hi => hno i (List.mem_range.mp hi))
      rcases hok with ⟨bs, hbs⟩
      rw [he] at hbs
      simp at hbs
    · rintro ⟨i, hi, hge⟩
      cases hres : encodeBlocksFrom raw p (max_block_size p)
          (List.range ((raw.length + max_block_size p - 1) / max_block_size p)) with
      | error e => exact ⟨e, rfl⟩
      | ok bs =>
        have hall := (encodeBlocksFrom_ok_iff raw p (max_block_size p)
            (List.range ((raw.length + max_block_size p - 1) / max_block_size p))).mp
          ⟨bs, hres⟩
        have := hall i (List.mem_range.mpr hi)
        omega
  · intro i herr
    rw [List.range_eq_range'] at herr
    have h := (encodeBlocksFrom_error_range' raw p (max_block_size p)
        ((raw.length + max_block_size p - 1) / max_block_size p) 0 i).mp herr
    exact ⟨by omega, h.2.2.1, fun j hj => h.2.2.2 j (Nat.zero_le j) hj⟩
  · intro blocks hok m hm
    have hall := (encodeBlocksFrom_ok_iff raw p (max_block_size p)
        (List.range ((raw.length + max_block_size p - 1) / max_block_size p))).mp
      ⟨blocks, hok⟩
    have hmap := encodeBlocksFrom_ok_map raw p (max_block_size p) _ blocks hok
    subst hmap
    rcases List.mem_map.mp hm with ⟨i, hi, rfl⟩
    exact hall i hi

/-- Witness for C5 on the buffer `41 00 FF` with `p = 10007` (`B = 1`). -/
theorem encoder_fail_iff_witness :
    ((∃ e, file_to_int_blocks [65, 0, 255] 10007 = .error e) ↔
      (∃ i, i < (([65, 0, 255] : List Nat).length + max_block_size 10007 - 1)
          / max_block_size 10007 ∧
        10007 ≤ bytesToNat ((([65, 0, 255] : List Nat).drop (i * max_block_size 10007)).take
          (max_block_size 10007)))) ∧
    (∀ i, file_to_int_blocks [65, 0, 255] 10007 = .error (.blockGE i) →
      (i < (([65, 0, 255] : List Nat).length + max_block_size 10007 - 1)
          / max_block_size 10007 ∧
        10007 ≤ bytesToNat ((([65, 0, 255] : List Nat).drop (i * max_block_size 10007)).take
          (max_block_size 10007)) ∧
        ∀ j, j < i →
          bytesToNat ((([65, 0, 255] : List Nat).drop (j * max_block_size 10007)).take
            (max_block_size 10007)) < 10007)) ∧
    (∀ blocks, file_to_int_blocks [65, 0, 255] 10007 = .ok blocks → ∀ m ∈ blocks, m < 10007) :=
  encoder_fail_iff [65, 0, 255] 10007 (by decide)

theorem natToBytesBE_length : ∀ (n m : Nat), (natToBytesBE n m).length = n
  | 0, _ => rfl
  | n + 1, m => by simp [natToBytesBE, natToBytesBE_length n (m / 256)]

theorem decodeBlock_range (p B : Nat) (m : Int) (hg : m < 0 ∨ (p : Int) ≤ m) :
    decodeBlock p B m = .error (.rangeError m) := by
  unfold decodeBlock
  rw [if_pos hg]

theorem decodeBlock_overflow (p B : Nat) (m : Int) (hg : ¬(m < 0 ∨ (p : Int) ≤ m))
    (hlen : B < (minimalChunk m.toNat).length) :
    decodeBlock p B m = .error (.lengthOverflow m) := by
  simp [decodeBlock, hg, hlen]

theorem decodeBlock_ok (p B : Nat) (m : Int) (hg : ¬(m < 0 ∨ (p : Int) ≤ m))
    (hlen : (minimalChunk m.toNat).length ≤ B) :
    decodeBlock p B m
      = .ok (List.replicate (B - (minimalChunk m.toNat).length) 0 ++ minimalChunk m.toNat) := by
  simp [decodeBlock, hg, Nat.not_lt.mpr hlen]

theorem decodeBlocks_nil (p B : Nat) : decodeBlocks p B [] = .ok [] := rfl

theorem decodeBlocks_cons_error (p B : Nat) (m : Int) (ms : List Int) (e : DecErr)
    (h : decodeBlock p B m = .error e) :
    decodeBlocks p B (m :: ms) = .error e := by
  simp [decodeBlocks, h]

theorem decodeBlocks_cons_ok (p B : Nat) (m : Int) (ms : List Int) (c bs : List Nat)
    (hc : decodeBlock p B m = .ok c) (hbs : decodeBlocks p B ms = .ok bs) :
    decodeBlocks p B (m :: ms) = .ok (c ++ bs) := by
  simp [decodeBlocks, hc, hbs]

theorem decodeBlocks_abort (p B : Nat) :
    ∀ (pre : List Int) (m : Int) (post : List Int) (e : DecErr),
      (∀ x ∈ pre, ∃ o, decodeBlock p B x = .ok o) →
      decodeBlock p B m = .error e →
      decodeBlocks p B (pre ++ m :: post) = .error e
  | [], m, post, e, _, hm => by
    simpa using decodeBlocks_cons_error p B m post e hm
  | x :: pre, m, post, e, hpre, hm => by
    rcases hpre x (List.mem_cons_self _ _) with ⟨o, ho⟩
    have htail := decodeBlocks_abort p B pre m post e
      (fun y hy => hpre y (List.mem_cons_of_mem _ hy)) hm
    rw [List.cons_append]
    simp [decodeBlocks, ho, htail]

theorem decodeBlocks_ok_of_forall (p B : Nat) :
    ∀ ms : List Int, (∀ m ∈ ms, ∃ o, decodeBlock p B m = .ok o) →
      ∃ bs, decodeBlocks p B ms = .ok bs
  | [], _ => ⟨[], rfl⟩
  | m :: ms, h => by
    rcases h m (List.mem_cons_self _ _) with ⟨c, hc⟩
    rcases decodeBlocks_ok_of_forall p B ms
      (fun y hy => h y (List.mem_cons_of_mem _ hy)) with ⟨bs, hbs⟩
    exact ⟨c ++ bs, decodeBlocks_cons_ok p B m ms c bs hc hbs⟩

/-- C6: an integer outside `[0, p)` makes the decoder raise the range error
(never a silently wrapped value); an in-range integer whose minimal chunk
exceeds `B` bytes raises the length-overflow error; and the block loop
aborts with that error at the offending block. -/
theorem decode_error_spec (p B : Nat) (m : Int) :
    (m < 0 ∨ (p : Int) ≤ m → decodeBlock p B m = .error (.rangeError m)) ∧
    (0 ≤ m → m < (p : Int) → B < (minimalChunk m.toNat).length →
      decodeBlock p B m = .error (.lengthOverflow m)) ∧
    (∀ (pre post : List Int) (e : DecErr),
      (∀ x ∈ pre, ∃ o, decodeBlock p B x = .ok o) →
      decodeBlock p B m = .error e →
      decodeBlocks p B (pre ++ m :: post) = .error e) := by
  refine ⟨decodeBlock_range p B m, ?_, ?_⟩
  · intro h0 h1 hlen
    exact decodeBlock_overflow p B m (by omega) hlen
  · intro pre post e hpre hm
    exact decodeBlocks_abort p B pre m post e hpre hm

/-- Witness for C6: at `p = 10007`, `B = 1`, the out-of-range input `-1`
raises the range error. -/
theorem decode_error_spec_witness :
    decodeBlock 10007 1 (-1) = .error (.rangeError (-1)) :=
  (decode_error_spec 10007 1 (-1)).1 (Or.inl (by decide))

/-- C7: for a valid input integer (`0 ≤ m < p`, minimal chunk at most `B`
bytes) the decoder produces exactly `B` bytes: the minimal big-endian chunk
(`[0]` for `m = 0`, never empty) left-padded with zeros to `B`; blocks are
concatenated in sequence order, and the final buffer is the concatenation
truncated to the original length `L`. -/
theorem decode_block_output (p B : Nat) (m : Int) (h0 : 0 ≤ m) (h1 : m < (p : Int))
    (h2 : (minimalChunk m.toNat).length ≤ B) :
    decodeBlock p B m
      = .ok (List.replicate (B - (minimalChunk m.toNat).length) 0 ++ minimalChunk m.toNat) ∧
    (List.replicate (B - (minimalChunk m.toNat).length) 0 ++ minimalChunk m.toNat).length = B ∧
    minimalChunk 0 = [0] ∧
    (∀ (ms : List Int) (bs : List Nat) (L : Nat),
      decodeBlocks p (max_block_size_int p) ms = .ok bs →
      decoder ms p L = .ok (bs.take L)) ∧
    (∀ (ms : List Int) (c bs : List Nat),
      decodeBlock p B m = .ok c → decodeBlocks p B ms = .ok bs →
      decodeBlocks p B (m :: ms) = .ok (c ++ bs)) := by
  refine ⟨decodeBlock_ok p B m (by omega) h2, ?_, rfl, ?_, ?_⟩
  · simp only [List.length_append, List.length_replicate]
    omega
  · intro ms bs L hbs
    simp [decoder, hbs]
  · intro ms c bs hc hbs
    exact decodeBlocks_cons_ok p B m ms c bs hc hbs

/-- Witness for C7 at `p = 10007`, `B = 1`, `m = 65`. -/
theorem decode_block_output_witness :
    decodeBlock 10007 1 65
      = .ok (List.replicate (1 - (minimalChunk (65 : Int).toNat).length) 0
          ++ minimalChunk (65 : Int).toNat) ∧
    (List.replicate (1 - (minimalChunk (65 : Int).toNat).length) 0
      ++ minimalChunk (65 : Int).toNat).length = 1 ∧
    minimalChunk 0 = [0] ∧
    (∀ (ms : List Int) (bs : List Nat) (L : Nat),
      decodeBlocks 10007 (max_block_size_int 10007) ms = .ok bs →
      decoder ms 10007 L = .ok (bs.take L)) ∧
    (∀ (ms : List Int) (c bs : List Nat),
      decodeBlock 10007 1 65 = .ok c → decodeBlocks 10007 1 ms = .ok bs →
      decodeBlocks 10007 1 ((65 : Int) :: ms) = .ok (c ++ bs)) :=
  decode_block_output 10007 1 65 (by decide) (by decide) (by decide)

theorem chunk_minimal_le (raw : List Nat) (B : Nat) (hbytes : ∀ b ∈ raw, b < 256)
    (hB : 1 ≤ B) (i : Nat) :
    (minimalChunk (bytesToNat ((raw.drop (i * B)).take B))).length ≤ B := by
  set m := bytesToNat ((raw.drop (i * B)).take B) with hm
  have hcb : ∀ b ∈ (raw.drop (i * B)).take B, b < 256 := fun b hb =>
    hbytes b (List.drop_subset _ _ (List.take_subset _ _ hb))
  have h1 : m < 256 ^ ((raw.drop (i * B)).take B).length := bytesToNat_lt _ hcb
  have h2 : ((raw.drop (i * B)).take B).length ≤ B := by
    simp only [List.length_take, List.length_drop]
    omega
  have h3 : (256 : Nat) ^ ((raw.drop (i * B)).take B).length ≤ 256 ^ B :=
    Nat.pow_le_pow_right (by omega) h2
  have h4 : m < 2 ^ (8 * B) := by
    have := pow256_eq B
    omega
  have h5 : Nat.size m ≤ 8 * B := Nat.size_le.mpr h4
  unfold minimalChunk
  by_cases hm0 : m = 0
  · rw [if_pos hm0]
    simpa using hB
  · rw [if_neg hm0, natToBytesBE_length]
    unfold byteLen
    rw [bitLength_eq_size]
    omega

/-- C10: every encoder-produced integer comes from a chunk of at most `B`
bytes, so on uncorrupted encoder output (same `p` on both sides) the
decoder's length-overflow branch is unreachable and the whole block list
decodes; yet integers in `[0, p)` whose minimal chunk exceeds `B` bytes do
exist (e.g. `300 < 10007` while `B = 1`). -/
theorem encoder_output_decodes (raw : List Nat) (p : Nat) (blocks : List Nat)
    (hbytes : ∀ b ∈ raw, b < 256)
    (henc : file_to_int_blocks raw p = .ok blocks) :
    (∀ m ∈ blocks,
      decodeBlock p (max_block_size_int p) (Int.ofNat m)
          ≠ .error (.lengthOverflow (Int.ofNat m)) ∧
      ∃ out, decodeBlock p (max_block_size_int p) (Int.ofNat m) = .ok out) ∧
    (∃ bs, decodeBlocks p (max_block_size_int p) (blocks.map Int.ofNat) = .ok bs) ∧
    (∃ q mv : Nat, mv < q ∧ max_block_size q < byteLen mv) := by
  have hB : 1 ≤ max_block_size p := by
    by_contra hc
    push_neg at hc
    have h1 : file_to_int_blocks raw p = .error .configError := by
      simp [file_to_int_blocks, fileToIntBlocksRun, hc]
    rw [h1] at henc
    simp at henc
  rw [file_to_int_blocks_eq raw p hB] at henc
  have hall := (encodeBlocksFrom_ok_iff raw p (max_block_size p)
      (List.range ((raw.length + max_block_size p - 1) / max_block_size p))).mp
    ⟨blocks, henc⟩
  have hmap := encodeBlocksFrom_ok_map raw p (max_block_size p) _ blocks henc
  have hdec : ∀ m ∈ blocks, ∃ out,
      decodeBlock p (max_block_size_int p) (Int.ofNat m) = .ok out := by
    intro m hm
    rw [hmap] at hm
    rcases List.mem_map.mp hm with ⟨i, hi, rfl⟩
    have hmp := hall i hi
    have hlen := chunk_minimal_le raw (max_block_size p) hbytes hB i
    have hg : ¬(((bytesToNat ((raw.drop (i * max_block_size p)).take (max_block_size p))
        : Nat) : Int) < 0 ∨
        (p : Int) ≤ ((bytesToNat ((raw.drop (i * max_block_size p)).take (max_block_size p))
        : Nat) : Int)) := by omega
    have hlen' : (minimalChunk ((bytesToNat ((raw.drop (i * max_block_size p)).take
        (max_block_size p)) : Int)).toNat).length ≤ max_block_size p := by
      simpa using hlen
    exact ⟨_, decodeBlock_ok p (max_block_size p) _ hg hlen'⟩
  refine ⟨?_, ?_, ⟨10007, 300, by decide, by decide⟩⟩
  · intro m hm
    rcases hdec m hm with ⟨out, hout⟩
    refine ⟨?_, ⟨out, hout⟩⟩
    rw [hout]
    simp
  · apply decodeBlocks_ok_of_forall
    intro x hx
    rcases List.mem_map.mp hx with ⟨m, hm, rfl⟩
    exact hdec m hm

/-- Witness for C10 on the buffer `41 00 FF` with `p = 10007`. -/
theorem encoder_output_decodes_witness :
    (∀ m ∈ ([65, 0, 255] : List Nat),
      decodeBlock 10007 (max_block_size_int 10007) (Int.ofNat m)
          ≠ .error (.lengthOverflow (Int.ofNat m)) ∧
      ∃ out, decodeBlock 10007 (max_block_size_int 10007) (Int.ofNat m) = .ok out) ∧
    (∃ bs, decodeBlocks 10007 (max_block_size_int 10007)
        (([65, 0, 255] : List Nat).map Int.ofNat) = .ok bs) ∧
    (∃ q mv : Nat, mv < q ∧ max_block_size q < byteLen mv) :=
  encoder_output_decodes [65, 0, 255] 10007 [65, 0, 255] (by decide) (by decide)

end PQCrypto
